import Mathlib

/-!
Shallow embedding of the html crate of browser-rs: the lexer
(src/crates/html/src/lexer.rs), the parser (src/crates/html/src/parser.rs)
and the hex-color conversion of the rendering front-end
(src/src/html_renderer.rs), together with proofs about the claims of the
specification.

Modelling conventions:
* Rust `char::is_alphanumeric` and `str::to_lowercase` are Unicode; the
  model uses their ASCII restrictions (`Char.isAlphanum`, `Char.toLower`),
  which agree with the Rust functions on every ASCII character.
* The iterator over the input `Vec<char>` is modelled by structural
  recursion over `List Char`.  The scanning loops are given an explicit
  fuel argument, spending one unit per loop iteration; since every
  iteration consumes at least one character (proved below), `length + 1`
  fuel always suffices, so the fuel wrapper is only a device to keep all
  definitions kernel-computable.
* The `f32` arithmetic of `hex_to_rgba` is modelled exactly over `ℚ`
  (division by 255 is exact in the model where `f32` rounds; the claims
  concern the domain of definition, the `r/255` formula and the 0..1
  range, which are unaffected).
* Fallible Rust code (`Option`, `unwrap`, `assert!`) is modelled with
  `Option`: `Parser::new`, which panics when lexing or validation fails,
  becomes a function returning `none` in exactly those cases.
-/

namespace BrowserRs

/-- `Token` (lexer.rs:5-12). -/
inductive Token where
  | TagBegin : String → Token
  | TagEnd : String → Token
  | Content : String → Token
  | Attribute : String × String → Token
  | EOF : Token
  deriving DecidableEq

/-- `Node` (parser.rs:3-11): `Element { tag, attributes, children }` or
`Text`. -/
inductive Node where
  | Element : String → List (String × String) → List Node → Node
  | Text : String → Node

/-- The character test `next.is_alphanumeric() || next == '-'` used for tag
names, attribute names and content starts (ASCII restriction of the Rust
Unicode test). -/
def isNameChar (c : Char) : Bool :=
  c.isAlphanum || c == '-'

/-- `get_next_word` (lexer.rs:161-172): longest prefix of
alphanumeric/hyphen characters, returned with the unconsumed remainder.
The attribute-name loop (lexer.rs:74-80) is character-for-character the
same loop and is modelled by this same function. -/
def getNextWord : List Char → List Char × List Char
  | [] => ([], [])
  | c :: cs =>
    if isNameChar c then
      let r := getNextWord cs
      (c :: r.1, r.2)
    else
      ([], c :: cs)

/-- The content loop (lexer.rs:114-121): characters up to (excluding) the
next `<`, returned with the unconsumed remainder. -/
def takeContent : List Char → List Char × List Char
  | [] => ([], [])
  | c :: cs =>
    if c == '<' then
      ([], c :: cs)
    else
      let r := takeContent cs
      (c :: r.1, r.2)

/-- The quoted-attribute-value loop (lexer.rs:88-108).  `quoteOpened` is
the `quote_opened` flag.  Every character other than `"` and a line break
is copied into the value (also before the opening quote, exactly as the
code does); the second `"` terminates; a line break or end of input makes
the whole lex fail (`none`). -/
def lexQuoted (quoteOpened : Bool) : List Char → Option (List Char × List Char)
  | [] => none
  | c :: cs =>
    if c == '"' then
      if quoteOpened then some ([], cs)
      else lexQuoted true cs
    else if c == '\n' then none
    else
      match lexQuoted quoteOpened cs with
      | none => none
      | some (v, r) => some (c :: v, r)

/-- The effect of one iteration of the `lex` scanning loop
(lexer.rs:32-129): either end of input, a token emitted, characters
consumed without a token, or an attribute name followed by `=` whose
quoted value is still to be scanned (the only fallible case, exposed
separately so it can be analysed). Each action carries the new
`is_lexing_tag` flag and the unconsumed remainder. -/
inductive LexAct where
  | done : LexAct
  | emit : Token → Bool → List Char → LexAct
  | skip : Bool → List Char → LexAct
  | attrEq : List Char → List Char → LexAct

/-- One iteration of the `lex` loop (lexer.rs:32-129) as a total step
function.  Branches, in source order: end of input; `<` (peek for `/` or
`!`, read the name, emit TagEnd or TagBegin — on TagBegin the
`is_lexing_tag` flag is set, on TagEnd it is left unchanged); `>` (clear
the flag); a name character inside a tag (attribute: name, then either a
`=`-introduced quoted value or an empty value); a name character outside
a tag (content up to the next `<`); any other character is discarded. -/
def lexStep (isLexingTag : Bool) (cs : List Char) : LexAct :=
  match cs with
  | [] => LexAct.done
  | ch :: rest =>
    if ch == '<' then
      match rest with
      | [] => LexAct.skip isLexingTag []
      | next :: rest' =>
        let rest1 := if next == '/' || next == '!' then rest' else rest
        let w := getNextWord rest1
        if next == '/' then LexAct.emit (Token.TagEnd (String.mk w.1)) isLexingTag w.2
        else LexAct.emit (Token.TagBegin (String.mk w.1)) true w.2
    else if ch == '>' then LexAct.skip false rest
    else if isNameChar ch then
      if isLexingTag then
        let w := getNextWord rest
        match w.2 with
        | [] => LexAct.emit (Token.Attribute (String.mk (ch :: w.1), "")) isLexingTag []
        | c2 :: tail =>
          if c2 == '=' then LexAct.attrEq (ch :: w.1) tail
          else LexAct.emit (Token.Attribute (String.mk (ch :: w.1), "")) isLexingTag (c2 :: tail)
      else
        let w := takeContent rest
        LexAct.emit (Token.Content (String.mk (ch :: w.1))) isLexingTag w.2
    else LexAct.skip isLexingTag rest

/-- The scanning loop of `Lexer::lex` (lexer.rs:27-132).  One unit of fuel
per iteration; `lex` supplies `length + 1` fuel, which is sufficient
because every iteration consumes at least one character. -/
def lexLoopF : Nat → Bool → List Char → Option (List Token)
  | 0, _, _ => none
  | fuel + 1, isLexingTag, cs =>
    match lexStep isLexingTag cs with
    | LexAct.done => some [Token.EOF]
    | LexAct.emit t tag' rest => (lexLoopF fuel tag' rest).map (fun ts => t :: ts)
    | LexAct.skip tag' rest => lexLoopF fuel tag' rest
    | LexAct.attrEq name tail =>
      match lexQuoted false tail with
      | none => none
      | some (v, rest) =>
        (lexLoopF fuel true rest).map
          (fun ts => Token.Attribute (String.mk name, String.mk v) :: ts)

/-- `Lexer::lex` (lexer.rs:27-132) on the collected character sequence of
the input (`position` is diagnostic only and not modelled). -/
def lex (input : String) : Option (List Token) :=
  lexLoopF (input.data.length + 1) false input.data

/-- `Lexer::is_tag_self_closing` (lexer.rs:153-158): case-insensitive
membership in the fixed set. -/
def isTagSelfClosing (tag : String) : Bool :=
  let t := String.mk (tag.data.map Char.toLower)
  t == "doctype" || t == "br" || t == "hr" || t == "img" || t == "input" ||
    t == "meta" || t == "link"

/-- `Lexer::validate` (lexer.rs:134-151), generalised over the current
stack of open tags.  The `VecDeque` is used as a stack via
`push_back`/`pop_back`; the model keeps the most recently pushed tag at
the head of the list. -/
def validateFrom (stack : List String) : List Token → Bool
  | [] => true
  | t :: ts =>
    match t with
    | Token.TagBegin tag =>
      if isTagSelfClosing tag then validateFrom stack ts
      else validateFrom (tag :: stack) ts
    | Token.TagEnd tag =>
      match stack with
      | [] => validateFrom [] ts
      | last :: rest => if last == tag then validateFrom rest ts else false
    | _ => validateFrom stack ts

/-- `Lexer::validate` (lexer.rs:134-151). -/
def validate (tokens : List Token) : Bool := validateFrom [] tokens

/-- Ghost state for the validator: the stack of open tags after a token
prefix, pushing non-self-closing TagBegins and popping on every TagEnd
exactly as the loop of `validate` does. -/
def stackFrom (stack : List String) : List Token → List String
  | [] => stack
  | t :: ts =>
    match t with
    | Token.TagBegin tag =>
      if isTagSelfClosing tag then stackFrom stack ts
      else stackFrom (tag :: stack) ts
    | Token.TagEnd _ => stackFrom stack.tail ts
    | _ => stackFrom stack ts

/-- The loop of `Parser::parse_element` (parser.rs:50-74), with the
element's accumulated attribute and child lists and the remaining token
suffix as explicit state (the shared cursor is the suffix: `*index += 1`
is dropping the head).  The recursive call
`self.parse_element(child_tag.clone(), index)` is inlined in the
`TagBegin` case (its result is the `Node::Element` of parser.rs:76-80).
One unit of fuel per loop iteration or recursive call; `2 * length + 1`
suffices (proved below). -/
def parseLoopF :
    Nat → String → List (String × String) → List Node → List Token →
      Option (List (String × String) × List Node × List Token)
  | 0, _, _, _, _ => none
  | fuel + 1, tag, attrs, children, rest =>
    match rest with
    | [] => some (attrs, children, [])
    | tok :: rest' =>
      match tok with
      | Token.TagBegin childTag =>
        if isTagSelfClosing tag then some (attrs, children, tok :: rest')
        else
          match parseLoopF fuel childTag [] [] rest' with
          | none => none
          | some (cattrs, cchildren, rest2) =>
            parseLoopF fuel tag attrs
              (children ++ [Node.Element childTag cattrs cchildren]) rest2
      | Token.TagEnd _ => some (attrs, children, rest')
      | Token.Attribute a => parseLoopF fuel tag (attrs ++ [a]) children rest'
      | Token.Content c =>
        parseLoopF fuel tag attrs (children ++ [Node.Text c]) rest'
      | Token.EOF => some (attrs, children, tok :: rest')

/-- `Parser::parse_element` (parser.rs:44-81): called with the token
suffix just after the opening `TagBegin` (the caller's cursor pointed at
the `TagBegin`; `*index += 1` has consumed it); returns the built
`Node::Element` and the remaining suffix. -/
def parseElemF (fuel : Nat) (tag : String) (rest : List Token) :
    Option (Node × List Token) :=
  (parseLoopF fuel tag [] [] rest).map
    (fun r => (Node.Element tag r.1 r.2.1, r.2.2))

/-- The top-level loop of `Parser::parse` (parser.rs:29-42): `TagBegin`
starts an element, `EOF` halts, anything else is skipped. -/
def parseTopF : Nat → List Token → Option (List Node)
  | 0, _ => none
  | fuel + 1, ts =>
    match ts with
    | [] => some []
    | tok :: rest =>
      match tok with
      | Token.TagBegin tag =>
        match parseElemF fuel tag rest with
        | none => none
        | some (node, rest') =>
          match parseTopF fuel rest' with
          | none => none
          | some nodes => some (node :: nodes)
      | Token.EOF => some []
      | _ => parseTopF fuel rest

/-- `Parser::parse` (parser.rs:29-42).  The fixed fuel `2 * length + 1`
is proved sufficient below, which is the termination argument for the
Rust loop/recursion pair. -/
def Parser.parse (tokens : List Token) : Option (List Node) :=
  parseTopF (2 * tokens.length + 1) tokens

/-- `Parser::new` (parser.rs:18-27): lex, then require validation; the
Rust `unwrap`/`assert!` panics are modelled as `none`. -/
def Parser.new (input : String) : Option (List Token) :=
  match lex input with
  | none => none
  | some ts => if validate ts then some ts else none

/-- `char::to_digit(16)`: value of a hexadecimal digit, computed on the
code point as the Rust implementation does. -/
def toDigit16 (c : Char) : Option Nat :=
  if '0'.toNat ≤ c.toNat ∧ c.toNat ≤ '9'.toNat then some (c.toNat - '0'.toNat)
  else if 'a'.toNat ≤ c.toNat ∧ c.toNat ≤ 'f'.toNat then some (c.toNat - 'a'.toNat + 10)
  else if 'A'.toNat ≤ c.toNat ∧ c.toNat ≤ 'F'.toNat then some (c.toNat - 'A'.toNat + 10)
  else none

/-- One digit step of `from_str_radix` with radix 16 into a `u8`: the
checked multiply-and-add (any intermediate value above 255 overflows and
fails). -/
def radixStepU8 (acc : Option Nat) (c : Char) : Option Nat :=
  match acc, toDigit16 c with
  | some a, some d => if a * 16 + d ≤ 255 then some (a * 16 + d) else none
  | _, _ => none

/-- `u8::from_str_radix(s, 16)` on a character sequence: an optional
leading `+` sign (a `-` is not a digit and fails for the unsigned target),
then at least one base-16 digit, accumulated with overflow checking. -/
def fromStrRadixU8 (s : List Char) : Option Nat :=
  let digits := match s with
    | c :: restStr => if c = '+' then restStr else c :: restStr
    | [] => []
  match digits with
  | [] => none
  | _ => digits.foldl radixStepU8 (some 0)

/-- Specification-side condition, following the spec's words for
LexFailure (§4.1 step 3, §7): while reading a quoted attribute value
introduced by `=`, "the input ends before the closing double-quote or a
line-break character is encountered first".  The value scan ends at the
second `"` of the tail; the scan fails when there is no first or no
second `"`, or a line break occurs before the second `"`. -/
def specQuotedValueFails (cs : List Char) : Bool :=
  let untilFirst := cs.takeWhile (fun c => c != '"')
  let fromFirst := cs.dropWhile (fun c => c != '"')
  let untilSecond := (fromFirst.drop 1).takeWhile (fun c => c != '"')
  let fromSecond := (fromFirst.drop 1).dropWhile (fun c => c != '"')
  untilFirst.contains '\n' || untilSecond.contains '\n' ||
    fromFirst.isEmpty || fromSecond.isEmpty

/-- Specification-side resume point of a successful quoted-value scan:
the characters after the second `"` of the tail. -/
def specValueRest (cs : List Char) : List Char :=
  (((cs.dropWhile (fun c => c != '"')).drop 1).dropWhile (fun c => c != '"')).drop 1

/-- Specification-side failure predicate for the whole scan (the control
flow is the scanner's; the failure condition at each `=`-introduced
quoted value is the spec-worded `specQuotedValueFails`). -/
def specLexFailsF : Nat → Bool → List Char → Bool
  | 0, _, _ => false
  | fuel + 1, isLexingTag, cs =>
    match lexStep isLexingTag cs with
    | LexAct.done => false
    | LexAct.emit _ tag' rest => specLexFailsF fuel tag' rest
    | LexAct.skip tag' rest => specLexFailsF fuel tag' rest
    | LexAct.attrEq _ tail =>
      if specQuotedValueFails tail then true
      else specLexFailsF fuel true (specValueRest tail)

/-- The spec-worded failure condition for `lex` on a whole input. -/
def specLexFails (input : String) : Bool :=
  specLexFailsF (input.data.length + 1) false input.data

/-- Whether a node is a `Text` leaf. -/
def isTextNode : Node → Bool
  | Node.Text _ => true
  | Node.Element _ _ _ => false

/-- Amended self-closing invariant of a parsed tree: an element whose tag
is self-closing has only `Text` children (the parser never attaches an
`Element` child to it), recursively in all children. -/
inductive SelfClosingOk : Node → Prop where
  | text (s : String) : SelfClosingOk (Node.Text s)
  | elem (tag : String) (attrs : List (String × String)) (children : List Node) :
      (isTagSelfClosing tag = true → children.all isTextNode = true) →
      (∀ c ∈ children, SelfClosingOk c) →
      SelfClosingOk (Node.Element tag attrs children)

/-- The characters of one balanced pair `<nm></nm>`. -/
def pairChars (nm : String) : List Char :=
  '<' :: nm.data ++ '>' :: '<' :: '/' :: nm.data ++ ['>']

/-- The characters of a concatenation of balanced pairs. -/
def pairsChars (nms : List String) : List Char :=
  (nms.map pairChars).flatten

/-- The tokens the lexer produces for a concatenation of balanced pairs
(before the final EOF). -/
def pairTokens (nms : List String) : List Token :=
  (nms.map (fun nm => [Token.TagBegin nm, Token.TagEnd nm])).flatten

/-- A name is a run of alphanumeric/hyphen characters, and non-empty. -/
def goodName (nm : String) : Prop :=
  nm.data ≠ [] ∧ nm.data.all isNameChar = true

instance (nm : String) : Decidable (goodName nm) :=
  inferInstanceAs (Decidable (_ ∧ _))

/-- A two-character group accepted by `u8::from_str_radix(_, 16)`: two
hexadecimal digits, or a leading `+` sign followed by one hexadecimal
digit. -/
def hexPairOk (p : List Char) : Bool :=
  match p with
  | [c1, c2] =>
    ((toDigit16 c1).isSome && (toDigit16 c2).isSome) ||
      (c1 == '+' && (toDigit16 c2).isSome)
  | _ => false

/-- Stripping of a single leading `#` (html_renderer.rs:229). -/
def stripHash (l : List Char) : List Char :=
  match l with
  | '#' :: rest => rest
  | l => l

/-- `hex_to_rgba` (html_renderer.rs:228-239), with the `f32` channel
values represented exactly in `ℚ`. -/
def hex_to_rgba (hex : String) : Option (ℚ × ℚ × ℚ × ℚ) :=
  let cs := stripHash hex.data
  if cs.length = 6 then
    match fromStrRadixU8 (cs.take 2), fromStrRadixU8 ((cs.drop 2).take 2),
        fromStrRadixU8 ((cs.drop 4).take 2) with
    | some r, some g, some b =>
      some ((r : ℚ) / 255, (g : ℚ) / 255, (b : ℚ) / 255, 1)
    | _, _, _ => none
  else none

/-- Invariant satisfied by every result of `lexStep` on `cs`: progress
(at least one character consumed, two before an attribute value) and the
fact that the scanning loop itself never emits `EOF`. -/
def LexActOk (cs : List Char) : LexAct → Prop
  | LexAct.done => cs = []
  | LexAct.emit t _ r => r.length < cs.length ∧ t ≠ Token.EOF
  | LexAct.skip _ r => r.length < cs.length
  | LexAct.attrEq _ tail => tail.length + 2 ≤ cs.length

/-- Specification-side value of a successful quoted-value scan: the
characters before the first `"` together with those between the first and
the second `"`. -/
def specValue (cs : List Char) : List Char :=
  cs.takeWhile (fun c => c != '"') ++
    ((cs.dropWhile (fun c => c != '"')).drop 1).takeWhile (fun c => c != '"')

/-! ### Lemmas about the scanning helpers -/

theorem getNextWord_length (cs : List Char) :
    (getNextWord cs).2.length ≤ cs.length := by
  induction cs with
  | nil => simp [getNextWord]
  | cons c cs ih =>
    simp only [getNextWord]
    split
    · exact Nat.le_succ_of_le ih
    · simp

theorem takeContent_length (cs : List Char) :
    (takeContent cs).2.length ≤ cs.length := by
  induction cs with
  | nil => simp [takeContent]
  | cons c cs ih =>
    simp only [takeContent]
    split
    · simp
    · exact Nat.le_succ_of_le ih

theorem lexQuoted_length :
    ∀ (cs : List Char) (qo : Bool) (v r : List Char),
      lexQuoted qo cs = some (v, r) → r.length ≤ cs.length := by
  intro cs
  induction cs with
  | nil => intro qo v r h; simp [lexQuoted] at h
  | cons c cs ih =>
    intro qo v r h
    simp only [lexQuoted] at h
    split at h
    · split at h
      · cases h
        simp
      · exact Nat.le_succ_of_le (ih true v r h)
    · split at h
      · exact absurd h (by simp)
      · revert h
        split
        · intro h; exact absurd h (by simp)
        · rename_i v' r' hrec
          intro h
          cases h
          exact Nat.le_succ_of_le (ih _ _ _ hrec)

theorem lexStep_ok (tag : Bool) (cs : List Char) : LexActOk cs (lexStep tag cs) := by
  cases cs with
  | nil => simp [lexStep, LexActOk]
  | cons ch rest =>
    by_cases h1 : ch == '<'
    · cases rest with
      | nil => simp [lexStep, h1, LexActOk]
      | cons next rest' =>
        by_cases h4 : next == '/'
        · have h2 := getNextWord_length rest'
          simp only [lexStep, h1, h4, Bool.true_or, if_true, LexActOk, List.length_cons]
          refine ⟨by omega, by simp⟩
        · by_cases h5 : next == '!'
          · have h2 := getNextWord_length rest'
            simp only [lexStep, h1, h4, h5, Bool.or_true, if_true, Bool.false_eq_true,
              if_false, LexActOk, List.length_cons]
            refine ⟨by omega, by simp⟩
          · have h2 := getNextWord_length (next :: rest')
            simp only [List.length_cons] at h2
            simp only [lexStep, h1, h4, h5, Bool.or_self, Bool.false_eq_true, if_false,
              LexActOk, List.length_cons]
            refine ⟨by omega, by simp⟩
    · by_cases h6 : ch == '>'
      · simp [lexStep, h1, h6, LexActOk]
      · by_cases h7 : isNameChar ch
        · cases tag with
          | false =>
            have h2 := takeContent_length rest
            simp only [lexStep, h1, h6, h7, Bool.false_eq_true, if_false, if_true,
              LexActOk, List.length_cons]
            refine ⟨by omega, by simp⟩
          | true =>
            simp only [lexStep, h1, h6, h7, Bool.false_eq_true, if_false, if_true]
            rcases hw : (getNextWord rest).2 with _ | ⟨c2, tail⟩
            · simp only [LexActOk, List.length_cons]
              refine ⟨by simp, by simp⟩
            · have h3 : tail.length + 1 ≤ rest.length := by
                have h2 := getNextWord_length rest
                rw [hw] at h2
                simp only [List.length_cons] at h2
                omega
              by_cases h8 : c2 == '='
              · simp only [h8, if_true, LexActOk, List.length_cons]
                omega
              · simp only [h8, Bool.false_eq_true, if_false, LexActOk, List.length_cons]
                refine ⟨by omega, by simp⟩
        · simp [lexStep, h1, h6, h7, LexActOk]

/-! ### The shape of every successful lex result (for C8) -/

theorem lexLoopF_shape :
    ∀ (fuel : Nat) (tag : Bool) (cs : List Char) (ts : List Token),
      lexLoopF fuel tag cs = some ts →
      ∃ pre, ts = pre ++ [Token.EOF] ∧ Token.EOF ∉ pre := by
  intro fuel
  induction fuel with
  | zero => intro tag cs ts h; simp [lexLoopF] at h
  | succ fuel ih =>
    intro tag cs ts h
    have hok := lexStep_ok tag cs
    cases hstep : lexStep tag cs with
    | done =>
      simp only [lexLoopF, hstep] at h
      cases h
      exact ⟨[], rfl, by simp⟩
    | emit t b r =>
      rw [hstep] at hok
      cases hrec : lexLoopF fuel b r with
      | none =>
        simp only [lexLoopF, hstep, hrec, Option.map_none'] at h
        exact absurd h (by simp)
      | some ts' =>
        simp only [lexLoopF, hstep, hrec, Option.map_some', Option.some.injEq] at h
        obtain ⟨pre, hpre, hmem⟩ := ih b r ts' hrec
        exact ⟨t :: pre, by simp [← h, hpre], by simp [hmem, Ne.symm hok.2]⟩
    | skip b r =>
      simp only [lexLoopF, hstep] at h
      exact ih b r ts h
    | attrEq nm tail =>
      cases hq : lexQuoted false tail with
      | none =>
        simp only [lexLoopF, hstep, hq] at h
        exact absurd h (by simp)
      | some vr =>
        obtain ⟨v, r⟩ := vr
        cases hrec : lexLoopF fuel true r with
        | none =>
          simp only [lexLoopF, hstep, hq, hrec, Option.map_none'] at h
          exact absurd h (by simp)
        | some ts' =>
          simp only [lexLoopF, hstep, hq, hrec, Option.map_some', Option.some.injEq] at h
          obtain ⟨pre, hpre, hmem⟩ := ih true r ts' hrec
          exact ⟨Token.Attribute (String.mk nm, String.mk v) :: pre,
            by simp [← h, hpre], by simp [hmem]⟩

/-! ### Validator lemmas (for C2, C3, C7) -/

theorem validateFrom_append (a b : List Token) :
    ∀ s, validateFrom s (a ++ b) = (validateFrom s a && validateFrom (stackFrom s a) b) := by
  induction a with
  | nil => intro s; simp [validateFrom, stackFrom]
  | cons t a ih =>
    intro s
    cases t with
    | TagBegin tag =>
      by_cases hsc : isTagSelfClosing tag
      · simp only [List.cons_append, validateFrom, stackFrom, hsc, if_true]
        exact ih s
      · simp only [List.cons_append, validateFrom, stackFrom, hsc, Bool.false_eq_true,
          if_false]
        exact ih (tag :: s)
    | TagEnd tag =>
      cases s with
      | nil =>
        simp only [List.cons_append, validateFrom, stackFrom, List.tail_nil]
        exact ih []
      | cons last rest =>
        by_cases hl : last == tag
        · simp only [List.cons_append, validateFrom, stackFrom, hl, if_true, List.tail_cons]
          exact ih rest
        · simp only [List.cons_append, validateFrom, stackFrom, hl, Bool.false_eq_true,
            if_false, List.tail_cons, Bool.false_and]
    | Content s' =>
      simp only [List.cons_append, validateFrom, stackFrom]
      exact ih _
    | Attribute a' =>
      simp only [List.cons_append, validateFrom, stackFrom]
      exact ih _
    | EOF =>
      simp only [List.cons_append, validateFrom, stackFrom]
      exact ih _

theorem validateFrom_true_iff :
    ∀ (ts : List Token) (s : List String),
      validateFrom s ts = true ↔
        ∀ pre name post, ts = pre ++ Token.TagEnd name :: post →
          (stackFrom s pre = [] ∨ (stackFrom s pre).head? = some name) := by
  intro ts
  induction ts with
  | nil =>
    intro s
    simp only [validateFrom, true_iff]
    intro pre name post h
    exact absurd h (by simp)
  | cons t ts ih =>
    intro s
    constructor
    · intro h pre name post hdec
      cases pre with
      | nil =>
        simp only [List.nil_append, List.cons.injEq] at hdec
        obtain ⟨h1, h2⟩ := hdec
        subst h1
        cases s with
        | nil => exact Or.inl rfl
        | cons last rest =>
          simp only [validateFrom] at h
          by_cases hl : last == name
          · simp only [stackFrom, List.head?_cons]
            exact Or.inr (by rw [(beq_iff_eq).mp hl])
          · rw [if_neg (by simpa using hl)] at h
            exact absurd h (by simp)
      | cons t' pre' =>
        simp only [List.cons_append, List.cons.injEq] at hdec
        obtain ⟨h1, h2⟩ := hdec
        subst h1
        cases t with
        | TagBegin tag =>
          by_cases hsc : isTagSelfClosing tag
          · simp only [validateFrom, hsc, if_true] at h
            simp only [stackFrom, hsc, if_true]
            exact (ih _).mp h pre' name post h2
          · simp only [validateFrom, hsc, Bool.false_eq_true, if_false] at h
            simp only [stackFrom, hsc, Bool.false_eq_true, if_false]
            exact (ih _).mp h pre' name post h2
        | TagEnd tag =>
          cases s with
          | nil =>
            simp only [validateFrom] at h
            simp only [stackFrom, List.tail_nil]
            exact (ih _).mp h pre' name post h2
          | cons last rest =>
            simp only [validateFrom] at h
            by_cases hl : last == tag
            · rw [if_pos hl] at h
              simp only [stackFrom, List.tail_cons]
              exact (ih _).mp h pre' name post h2
            · rw [if_neg (by simpa using hl)] at h
              exact absurd h (by simp)
        | Content s' =>
          simp only [validateFrom] at h
          simp only [stackFrom]
          exact (ih _).mp h pre' name post h2
        | Attribute a =>
          simp only [validateFrom] at h
          simp only [stackFrom]
          exact (ih _).mp h pre' name post h2
        | EOF =>
          simp only [validateFrom] at h
          simp only [stackFrom]
          exact (ih _).mp h pre' name post h2
    · intro hall
      cases t with
      | TagBegin tag =>
        by_cases hsc : isTagSelfClosing tag
        · simp only [validateFrom, hsc, if_true]
          refine (ih _).mpr ?_
          intro pre name post hdec
          have := hall (Token.TagBegin tag :: pre) name post (by simp [hdec])
          simpa only [stackFrom, hsc, if_true] using this
        · simp only [validateFrom, hsc, Bool.false_eq_true, if_false]
          refine (ih _).mpr ?_
          intro pre name post hdec
          have := hall (Token.TagBegin tag :: pre) name post (by simp [hdec])
          simpa only [stackFrom, hsc, Bool.false_eq_true, if_false] using this
      | TagEnd tag =>
        cases s with
        | nil =>
          simp only [validateFrom]
          refine (ih _).mpr ?_
          intro pre name post hdec
          have := hall (Token.TagEnd tag :: pre) name post (by simp [hdec])
          simpa only [stackFrom, List.tail_nil] using this
        | cons last rest =>
          have hhead := hall [] tag ts (by simp)
          simp only [stackFrom, List.head?_cons] at hhead
          have hlast : last = tag := by
            rcases hhead with h | h
            · exact absurd h (by simp)
            · simpa using h
          simp only [validateFrom, hlast, beq_self_eq_true, if_true]
          refine (ih _).mpr ?_
          intro pre name post hdec
          have := hall (Token.TagEnd tag :: pre) name post (by simp [hdec])
          simpa only [stackFrom, List.tail_cons] using this
      | Content s' =>
        simp only [validateFrom]
        refine (ih _).mpr ?_
        intro pre name post hdec
        have := hall (Token.Content s' :: pre) name post (by simp [hdec])
        simpa only [stackFrom] using this
      | Attribute a =>
        simp only [validateFrom]
        refine (ih _).mpr ?_
        intro pre name post hdec
        have := hall (Token.Attribute a :: pre) name post (by simp [hdec])
        simpa only [stackFrom] using this
      | EOF =>
        simp only [validateFrom]
        refine (ih _).mpr ?_
        intro pre name post hdec
        have := hall (Token.EOF :: pre) name post (by simp [hdec])
        simpa only [stackFrom] using this

/-! ### Parser lemmas (for C1, C6, C10) -/

theorem parseLoopF_length :
    ∀ (fuel : Nat) (tag : String) (attrs : List (String × String))
      (children : List Node) (rest : List Token)
      (out : List (String × String) × List Node × List Token),
      parseLoopF fuel tag attrs children rest = some out →
      out.2.2.length ≤ rest.length := by
  intro fuel
  induction fuel with
  | zero => intro tag attrs children rest out h; simp [parseLoopF] at h
  | succ fuel ih =>
    intro tag attrs children rest out h
    cases rest with
    | nil =>
      simp only [parseLoopF, Option.some.injEq] at h
      rw [← h]
    | cons tok rest' =>
      cases tok with
      | TagBegin childTag =>
        by_cases hsc : isTagSelfClosing tag
        · simp only [parseLoopF, hsc, if_true, Option.some.injEq] at h
          rw [← h]
        · simp only [parseLoopF, hsc, Bool.false_eq_true, if_false] at h
          cases hc : parseLoopF fuel childTag [] [] rest' with
          | none => rw [hc] at h; exact absurd h (by simp)
          | some cout =>
            obtain ⟨cattrs, cchildren, rest2⟩ := cout
            rw [hc] at h
            have hb1 := ih childTag [] [] rest' (cattrs, cchildren, rest2) hc
            have hb2 := ih tag attrs
              (children ++ [Node.Element childTag cattrs cchildren]) rest2 out h
            simp only [List.length_cons]
            simp only at hb1
            omega
      | TagEnd tag2 =>
        simp only [parseLoopF, Option.some.injEq] at h
        rw [← h]
        simp only [List.length_cons]
        omega
      | Attribute a =>
        simp only [parseLoopF] at h
        have := ih tag (attrs ++ [a]) children rest' out h
        simp only [List.length_cons]
        omega
      | Content c =>
        simp only [parseLoopF] at h
        have := ih tag attrs (children ++ [Node.Text c]) rest' out h
        simp only [List.length_cons]
        omega
      | EOF =>
        simp only [parseLoopF, Option.some.injEq] at h
        rw [← h]

theorem parseLoopF_total :
    ∀ (fuel : Nat) (tag : String) (attrs : List (String × String))
      (children : List Node) (rest : List Token),
      2 * rest.length + 1 ≤ fuel →
      ∃ out, parseLoopF fuel tag attrs children rest = some out := by
  intro fuel
  induction fuel with
  | zero => intro tag attrs children rest h; omega
  | succ fuel ih =>
    intro tag attrs children rest hf
    cases rest with
    | nil => exact ⟨(attrs, children, []), by simp [parseLoopF]⟩
    | cons tok rest' =>
      simp only [List.length_cons] at hf
      cases tok with
      | TagBegin childTag =>
        by_cases hsc : isTagSelfClosing tag
        · exact ⟨(attrs, children, Token.TagBegin childTag :: rest'),
            by simp [parseLoopF, hsc]⟩
        · obtain ⟨cout, hc⟩ := ih childTag [] [] rest' (by omega)
          obtain ⟨cattrs, cchildren, rest2⟩ := cout
          have hb := parseLoopF_length fuel childTag [] [] rest'
            (cattrs, cchildren, rest2) hc
          simp only at hb
          obtain ⟨out, hout⟩ := ih tag attrs
            (children ++ [Node.Element childTag cattrs cchildren]) rest2 (by omega)
          refine ⟨out, ?_⟩
          simp only [parseLoopF, hsc, Bool.false_eq_true, if_false, hc, hout]
      | TagEnd tag2 => exact ⟨(attrs, children, rest'), by simp [parseLoopF]⟩
      | Attribute a =>
        obtain ⟨out, hout⟩ := ih tag (attrs ++ [a]) children rest' (by omega)
        exact ⟨out, by simp only [parseLoopF, hout]⟩
      | Content c =>
        obtain ⟨out, hout⟩ := ih tag attrs (children ++ [Node.Text c]) rest' (by omega)
        exact ⟨out, by simp only [parseLoopF, hout]⟩
      | EOF => exact ⟨(attrs, children, Token.EOF :: rest'), by simp [parseLoopF]⟩

theorem parseLoopF_selfClosingOk :
    ∀ (fuel : Nat) (tag : String) (attrs : List (String × String))
      (children : List Node) (rest : List Token)
      (out : List (String × String) × List Node × List Token),
      parseLoopF fuel tag attrs children rest = some out →
      (∀ c ∈ children, SelfClosingOk c) →
      (isTagSelfClosing tag = true → children.all isTextNode = true) →
      (∀ c ∈ out.2.1, SelfClosingOk c) ∧
        (isTagSelfClosing tag = true → out.2.1.all isTextNode = true) := by
  intro fuel
  induction fuel with
  | zero => intro tag attrs children rest out h; simp [parseLoopF] at h
  | succ fuel ih =>
    intro tag attrs children rest out h hok htext
    cases rest with
    | nil =>
      simp only [parseLoopF, Option.some.injEq] at h
      rw [← h]
      exact ⟨hok, htext⟩
    | cons tok rest' =>
      cases tok with
      | TagBegin childTag =>
        by_cases hsc : isTagSelfClosing tag
        · simp only [parseLoopF, hsc, if_true, Option.some.injEq] at h
          rw [← h]
          exact ⟨hok, htext⟩
        · simp only [parseLoopF, hsc, Bool.false_eq_true, if_false] at h
          cases hc : parseLoopF fuel childTag [] [] rest' with
          | none => rw [hc] at h; exact absurd h (by simp)
          | some cout =>
            obtain ⟨cattrs, cchildren, rest2⟩ := cout
            rw [hc] at h
            have hchild := ih childTag [] [] rest' (cattrs, cchildren, rest2) hc
              (by simp) (by simp)
            simp only at hchild
            have helem : SelfClosingOk (Node.Element childTag cattrs cchildren) :=
              SelfClosingOk.elem childTag cattrs cchildren hchild.2 hchild.1
            refine ih tag attrs _ rest2 out h ?_ ?_
            · intro c hc'
              rcases List.mem_append.mp hc' with hc' | hc'
              · exact hok c hc'
              · rw [List.mem_singleton.mp hc']
                exact helem
            · intro hsc'
              exact absurd hsc' hsc
      | TagEnd tag2 =>
        simp only [parseLoopF, Option.some.injEq] at h
        rw [← h]
        exact ⟨hok, htext⟩
      | Attribute a =>
        simp only [parseLoopF] at h
        exact ih tag (attrs ++ [a]) children rest' out h hok htext
      | Content c =>
        simp only [parseLoopF] at h
        refine ih tag attrs _ rest' out h ?_ ?_
        · intro c' hc'
          rcases List.mem_append.mp hc' with hc' | hc'
          · exact hok c' hc'
          · rw [List.mem_singleton.mp hc']
            exact SelfClosingOk.text c
        · intro hsc'
          have := htext hsc'
          simp only [List.all_append, this, Bool.true_and, List.all_cons, List.all_nil]
          simp [isTextNode]
      | EOF =>
        simp only [parseLoopF, Option.some.injEq] at h
        rw [← h]
        exact ⟨hok, htext⟩

theorem parseTopF_total :
    ∀ (fuel : Nat) (ts : List Token), 2 * ts.length + 1 ≤ fuel →
      ∃ ns, parseTopF fuel ts = some ns := by
  intro fuel
  induction fuel with
  | zero => intro ts h; omega
  | succ fuel ih =>
    intro ts hf
    cases ts with
    | nil => exact ⟨[], by simp [parseTopF]⟩
    | cons tok rest =>
      simp only [List.length_cons] at hf
      cases tok with
      | TagBegin tag =>
        obtain ⟨out, hout⟩ := parseLoopF_total fuel tag [] [] rest (by omega)
        obtain ⟨attrs, children, rest'⟩ := out
        have hb := parseLoopF_length fuel tag [] [] rest (attrs, children, rest') hout
        simp only at hb
        obtain ⟨ns, hns⟩ := ih rest' (by omega)
        refine ⟨Node.Element tag attrs children :: ns, ?_⟩
        simp only [parseTopF, parseElemF, hout, Option.map_some', hns]
      | TagEnd tag2 =>
        obtain ⟨ns, hns⟩ := ih rest (by omega)
        exact ⟨ns, by simp only [parseTopF, hns]⟩
      | Attribute a =>
        obtain ⟨ns, hns⟩ := ih rest (by omega)
        exact ⟨ns, by simp only [parseTopF, hns]⟩
      | Content c =>
        obtain ⟨ns, hns⟩ := ih rest (by omega)
        exact ⟨ns, by simp only [parseTopF, hns]⟩
      | EOF => exact ⟨[], by simp [parseTopF]⟩

theorem parseTopF_selfClosingOk :
    ∀ (fuel : Nat) (ts : List Token) (ns : List Node),
      parseTopF fuel ts = some ns → ∀ n ∈ ns, SelfClosingOk n := by
  intro fuel
  induction fuel with
  | zero => intro ts ns h; simp [parseTopF] at h
  | succ fuel ih =>
    intro ts ns h
    cases ts with
    | nil =>
      simp only [parseTopF, Option.some.injEq] at h
      rw [← h]
      simp
    | cons tok rest =>
      cases tok with
      | TagBegin tag =>
        simp only [parseTopF, parseElemF] at h
        cases hout : parseLoopF fuel tag [] [] rest with
        | none => rw [hout] at h; exact absurd h (by simp)
        | some out =>
          obtain ⟨attrs, children, rest'⟩ := out
          rw [hout] at h
          simp only [Option.map_some'] at h
          cases hns : parseTopF fuel rest' with
          | none => rw [hns] at h; exact absurd h (by simp)
          | some ns' =>
            rw [hns] at h
            simp only [Option.some.injEq] at h
            have hchild := parseLoopF_selfClosingOk fuel tag [] [] rest
              (attrs, children, rest') hout (by simp) (by simp)
            simp only at hchild
            have helem : SelfClosingOk (Node.Element tag attrs children) :=
              SelfClosingOk.elem tag attrs children hchild.2 hchild.1
            intro n hn
            rw [← h] at hn
            rcases List.mem_cons.mp hn with hn | hn
            · rw [hn]; exact helem
            · exact ih rest' ns' hns n hn
      | TagEnd tag2 =>
        simp only [parseTopF] at h
        exact ih rest ns h
      | Attribute a =>
        simp only [parseTopF] at h
        exact ih rest ns h
      | Content c =>
        simp only [parseTopF] at h
        exact ih rest ns h
      | EOF =>
        simp only [parseTopF, Option.some.injEq] at h
        rw [← h]
        simp

/-! ### Characterisation of the quoted-value scan (for C4) -/

theorem lexQuoted_true_eq :
    ∀ cs : List Char,
      lexQuoted true cs =
        if ((cs.takeWhile (fun c => c != '"')).contains '\n' ||
            (cs.dropWhile (fun c => c != '"')).isEmpty) = true
        then none
        else some (cs.takeWhile (fun c => c != '"'),
          (cs.dropWhile (fun c => c != '"')).drop 1) := by
  intro cs
  induction cs with
  | nil => simp [lexQuoted]
  | cons c cs ih =>
    by_cases hq : c = '"'
    · subst hq
      simp [lexQuoted]
    · have h1 : (c == '"') = false := by simp [hq]
      have h3 : (c != '"') = true := by simp [hq]
      by_cases hn : c = '\n'
      · subst hn
        simp [lexQuoted, h1, h3]
      · have h2 : (c == '\n') = false := by simp [hn]
        have h4 : ('\n' == c) = false := by simp [Ne.symm hn]
        simp only [lexQuoted, h1, Bool.false_eq_true, if_false, h2, ih,
          List.takeWhile_cons, List.dropWhile_cons, h3, if_true, List.contains_cons, h4,
          Bool.false_or]
        by_cases hP : ((cs.takeWhile (fun c => c != '"')).contains '\n' ||
            (cs.dropWhile (fun c => c != '"')).isEmpty) = true
        · simp only [if_pos hP]
        · simp only [if_neg hP]

theorem lexQuoted_false_eq :
    ∀ cs : List Char,
      lexQuoted false cs =
        if specQuotedValueFails cs = true then none
        else some (specValue cs, specValueRest cs) := by
  intro cs
  induction cs with
  | nil => simp [lexQuoted, specQuotedValueFails]
  | cons c cs ih =>
    by_cases hq : c = '"'
    · subst hq
      have lhs : lexQuoted false ('"' :: cs) = lexQuoted true cs := by
        simp [lexQuoted]
      rw [lhs, lexQuoted_true_eq]
      simp only [specQuotedValueFails, specValue, specValueRest, List.takeWhile_cons,
        List.dropWhile_cons]
      simp
    · have h1 : (c == '"') = false := by simp [hq]
      have h3 : (c != '"') = true := by simp [hq]
      by_cases hn : c = '\n'
      · subst hn
        have lhs : lexQuoted false ('\n' :: cs) = none := by
          simp [lexQuoted, h1]
        rw [lhs]
        have : specQuotedValueFails ('\n' :: cs) = true := by
          simp [specQuotedValueFails, List.takeWhile_cons, h3]
        rw [if_pos this]
      · have h2 : (c == '\n') = false := by simp [hn]
        have h4 : ('\n' == c) = false := by simp [Ne.symm hn]
        have hfail : specQuotedValueFails (c :: cs) = specQuotedValueFails cs := by
          simp only [specQuotedValueFails, List.takeWhile_cons, List.dropWhile_cons, h3,
            if_true, List.contains_cons, h4, Bool.false_or, List.isEmpty_cons]
        have hval : specValue (c :: cs) = c :: specValue cs := by
          simp only [specValue, List.takeWhile_cons, List.dropWhile_cons, h3, if_true,
            List.cons_append]
        have hrest : specValueRest (c :: cs) = specValueRest cs := by
          simp only [specValueRest, List.dropWhile_cons, h3, if_true]
        simp only [lexQuoted, h1, Bool.false_eq_true, if_false, h2, ih, hfail, hval, hrest]
        by_cases hP : specQuotedValueFails cs = true
        · simp only [if_pos hP]
        · simp only [if_neg hP]

theorem lexLoopF_none_iff_specFails :
    ∀ (fuel : Nat) (tag : Bool) (cs : List Char), cs.length < fuel →
      (lexLoopF fuel tag cs = none ↔ specLexFailsF fuel tag cs = true) := by
  intro fuel
  induction fuel with
  | zero => intro tag cs h; omega
  | succ fuel ih =>
    intro tag cs hf
    have hok := lexStep_ok tag cs
    cases hstep : lexStep tag cs with
    | done =>
      simp only [lexLoopF, specLexFailsF, hstep]
      simp
    | emit t b r =>
      rw [hstep] at hok
      have hr : r.length < fuel := by
        have h5 : r.length < cs.length := hok.1
        omega
      simp only [lexLoopF, specLexFailsF, hstep, Option.map_eq_none']
      exact ih b r hr
    | skip b r =>
      rw [hstep] at hok
      have hr : r.length < fuel := by
        have h5 : r.length < cs.length := hok
        omega
      simp only [lexLoopF, specLexFailsF, hstep]
      exact ih b r hr
    | attrEq nm tail =>
      rw [hstep] at hok
      have htl : tail.length + 2 ≤ cs.length := hok
      simp only [lexLoopF, specLexFailsF, hstep]
      rw [lexQuoted_false_eq tail]
      by_cases hP : specQuotedValueFails tail = true
      · simp only [if_pos hP]
      · simp only [if_neg hP]
        have hr : (specValueRest tail).length < fuel := by
          have b1 : (tail.dropWhile (fun c => c != '"')).length ≤ tail.length :=
            (List.dropWhile_sublist (fun c => c != '"')).length_le
          have b2 : (((tail.dropWhile (fun c => c != '"')).drop 1).dropWhile
              (fun c => c != '"')).length ≤
              ((tail.dropWhile (fun c => c != '"')).drop 1).length :=
            (List.dropWhile_sublist (fun c => c != '"')).length_le
          have b3 : (specValueRest tail).length =
              (((tail.dropWhile (fun c => c != '"')).drop 1).dropWhile
                (fun c => c != '"')).length - 1 := by
            simp [specValueRest, List.length_drop]
          have b4 : ((tail.dropWhile (fun c => c != '"')).drop 1).length =
              (tail.dropWhile (fun c => c != '"')).length - 1 := by
            simp [List.length_drop]
          omega
        simp only [Option.map_eq_none']
        exact ih true (specValueRest tail) hr

/-! ### Fuel irrelevance and lexing of balanced pairs (for C7) -/

theorem lexLoopF_irrel :
    ∀ (f₁ : Nat) (tag : Bool) (cs : List Char), cs.length < f₁ →
      ∀ f₂ : Nat, cs.length < f₂ → lexLoopF f₁ tag cs = lexLoopF f₂ tag cs := by
  intro f₁
  induction f₁ with
  | zero => intro tag cs h; omega
  | succ f₁ ih =>
    intro tag cs h1 f₂ h2
    obtain ⟨f₂', rfl⟩ : ∃ k, f₂ = k + 1 := ⟨f₂ - 1, by omega⟩
    have hok := lexStep_ok tag cs
    cases hstep : lexStep tag cs with
    | done => simp only [lexLoopF, hstep]
    | emit t b r =>
      rw [hstep] at hok
      have hr : r.length < cs.length := hok.1
      simp only [lexLoopF, hstep]
      rw [ih b r (by omega) f₂' (by omega)]
    | skip b r =>
      rw [hstep] at hok
      have hr : r.length < cs.length := hok
      simp only [lexLoopF, hstep]
      exact ih b r (by omega) f₂' (by omega)
    | attrEq nm tail =>
      rw [hstep] at hok
      have htl : tail.length + 2 ≤ cs.length := hok
      simp only [lexLoopF, hstep]
      cases hq : lexQuoted false tail with
      | none => rfl
      | some vr =>
        obtain ⟨v, r⟩ := vr
        have hr := lexQuoted_length tail false v r hq
        simp only [ih true r (by omega) f₂' (by omega)]

theorem getNextWord_append :
    ∀ (w : List Char) (d : Char) (rest : List Char),
      (∀ c ∈ w, isNameChar c = true) → isNameChar d = false →
      getNextWord (w ++ d :: rest) = (w, d :: rest) := by
  intro w
  induction w with
  | nil =>
    intro d rest _ hd
    simp [getNextWord, hd]
  | cons c w ih =>
    intro d rest hall hd
    have hc : isNameChar c = true := hall c (by simp)
    simp only [List.cons_append, getNextWord, hc, if_true, List.append_eq]
    have ih' := ih d rest (fun x hx => hall x (by simp [hx])) hd
    simp only [List.append_eq] at ih'
    rw [ih']

theorem lexStep_gt (tag : Bool) (rest : List Char) :
    lexStep tag ('>' :: rest) = LexAct.skip false rest := by
  simp [lexStep]

theorem lexStep_open (tag : Bool) (nm : String) (hne : nm.data ≠ [])
    (hall : ∀ c ∈ nm.data, isNameChar c = true) (d : Char) (hd : isNameChar d = false)
    (rest : List Char) :
    lexStep tag ('<' :: (nm.data ++ d :: rest)) =
      LexAct.emit (Token.TagBegin nm) true (d :: rest) := by
  obtain ⟨n₀, nm', hcons⟩ : ∃ a l, nm.data = a :: l := by
    cases hdata : nm.data with
    | nil => exact absurd hdata hne
    | cons a l => exact ⟨a, l, rfl⟩
  have h₀ : isNameChar n₀ = true := hall n₀ (by rw [hcons]; simp)
  have hs : (n₀ == '/') = false := by
    by_cases h : n₀ = '/'
    · rw [h] at h₀; exact absurd h₀ (by decide)
    · simp [h]
  have hb : (n₀ == '!') = false := by
    by_cases h : n₀ = '!'
    · rw [h] at h₀; exact absurd h₀ (by decide)
    · simp [h]
  have hw : getNextWord (nm.data ++ d :: rest) = (nm.data, d :: rest) :=
    getNextWord_append nm.data d rest hall hd
  have hmk : String.mk nm.data = nm := rfl
  rw [hcons] at hw ⊢
  rw [← hmk, hcons]
  simp only [List.cons_append, List.append_eq] at hw ⊢
  simp only [lexStep, hs, hb, Bool.or_self, Bool.false_eq_true, if_false,
    beq_self_eq_true, if_true, hw]

theorem lexStep_close (tag : Bool) (nm : String)
    (hall : ∀ c ∈ nm.data, isNameChar c = true) (d : Char) (hd : isNameChar d = false)
    (rest : List Char) :
    lexStep tag ('<' :: '/' :: (nm.data ++ d :: rest)) =
      LexAct.emit (Token.TagEnd nm) tag (d :: rest) := by
  have hw : getNextWord (nm.data ++ d :: rest) = (nm.data, d :: rest) :=
    getNextWord_append nm.data d rest hall hd
  have hmk : String.mk nm.data = nm := rfl
  rw [← hmk]
  simp only [List.append_eq] at hw ⊢
  simp only [lexStep, beq_self_eq_true, Bool.true_or, if_true, hw]

theorem pairChars_length (nm : String) :
    (pairChars nm).length = 2 * nm.data.length + 5 := by
  simp [pairChars]
  omega

theorem lexLoopF_pair (nm : String) (hgood : goodName nm) (rest : List Char) :
    ∀ fuel : Nat, (pairChars nm ++ rest).length < fuel →
      lexLoopF fuel false (pairChars nm ++ rest) =
        (lexLoopF (rest.length + 1) false rest).map
          (fun ts => Token.TagBegin nm :: Token.TagEnd nm :: ts) := by
  obtain ⟨hne, hall⟩ := hgood
  have hall' : ∀ c ∈ nm.data, isNameChar c = true := by
    intro c hc
    exact List.all_eq_true.mp hall c hc
  intro fuel hf
  have hlen : (pairChars nm ++ rest).length = 2 * nm.data.length + 5 + rest.length := by
    simp [List.length_append, pairChars_length]
  have hnm1 : 1 ≤ nm.data.length := by
    cases hdata : nm.data with
    | nil => exact absurd hdata hne
    | cons a l => simp
  obtain ⟨f, rfl⟩ : ∃ k, fuel = k + 4 := ⟨fuel - 4, by omega⟩
  have e1 : pairChars nm ++ rest =
      '<' :: (nm.data ++ '>' :: ('<' :: '/' :: (nm.data ++ '>' :: rest))) := by
    simp [pairChars]
  rw [e1]
  have s1 := lexStep_open false nm hne hall' '>' (by decide)
    ('<' :: '/' :: (nm.data ++ '>' :: rest))
  have s2 := lexStep_gt true ('<' :: '/' :: (nm.data ++ '>' :: rest))
  have s3 := lexStep_close false nm hall' '>' (by decide) rest
  have s4 := lexStep_gt false rest
  simp only [lexLoopF, s1, s2, s3, s4, Option.map_map]
  rw [lexLoopF_irrel f false rest (by omega) (rest.length + 1) (by omega)]
  rfl

theorem lexLoopF_pairs :
    ∀ (nms : List String), (∀ nm ∈ nms, goodName nm) →
      ∀ fuel : Nat, (pairsChars nms).length < fuel →
        lexLoopF fuel false (pairsChars nms) =
          some (pairTokens nms ++ [Token.EOF]) := by
  intro nms
  induction nms with
  | nil =>
    intro _ fuel hf
    obtain ⟨f, rfl⟩ : ∃ k, fuel = k + 1 := ⟨fuel - 1, by omega⟩
    simp [pairsChars, pairTokens, lexLoopF, lexStep]
  | cons nm nms ih =>
    intro hgood fuel hf
    have e1 : pairsChars (nm :: nms) = pairChars nm ++ pairsChars nms := by
      simp [pairsChars]
    rw [e1] at hf ⊢
    rw [lexLoopF_pair nm (hgood nm (by simp)) (pairsChars nms) fuel hf]
    rw [ih (fun x hx => hgood x (by simp [hx])) ((pairsChars nms).length + 1) (by omega)]
    simp [pairTokens]

theorem validateFrom_pairTokens :
    ∀ (nms : List String), validateFrom [] (pairTokens nms ++ [Token.EOF]) = true := by
  intro nms
  induction nms with
  | nil => simp [pairTokens, validateFrom]
  | cons nm nms ih =>
    have e1 : pairTokens (nm :: nms) = Token.TagBegin nm :: Token.TagEnd nm :: pairTokens nms := by
      simp [pairTokens]
    rw [e1]
    by_cases hsc : isTagSelfClosing nm
    · simp only [List.cons_append, validateFrom, hsc, if_true]
      exact ih
    · simp only [List.cons_append, validateFrom, hsc, Bool.false_eq_true, if_false,
        beq_self_eq_true, if_true]
      exact ih

/-! ### Lemmas about the hex conversion (for C9) -/

theorem toDigit16_le (c : Char) (d : Nat) (h : toDigit16 c = some d) : d ≤ 15 := by
  have e0 : '0'.toNat = 48 := rfl
  have e9 : '9'.toNat = 57 := rfl
  have ea : 'a'.toNat = 97 := rfl
  have ef : 'f'.toNat = 102 := rfl
  have eA : 'A'.toNat = 65 := rfl
  have eF : 'F'.toNat = 70 := rfl
  simp only [toDigit16, e0, e9, ea, ef, eA, eF] at h
  split at h
  · simp only [Option.some.injEq] at h
    omega
  · split at h
    · simp only [Option.some.injEq] at h
      omega
    · split at h
      · simp only [Option.some.injEq] at h
        omega
      · exact absurd h (by simp)

theorem foldl_radixStepU8_none : ∀ l : List Char, l.foldl radixStepU8 none = none := by
  intro l
  induction l with
  | nil => rfl
  | cons c l ih =>
    have : radixStepU8 none c = none := rfl
    simp only [List.foldl_cons, this, ih]

theorem foldl_radixStepU8_le :
    ∀ (l : List Char) (a : Nat), a ≤ 255 → ∀ n, l.foldl radixStepU8 (some a) = some n →
      n ≤ 255 := by
  intro l
  induction l with
  | nil =>
    intro a ha n h
    simp only [List.foldl_nil, Option.some.injEq] at h
    omega
  | cons c l ih =>
    intro a ha n h
    simp only [List.foldl_cons] at h
    cases hd : toDigit16 c with
    | none =>
      have hstep : radixStepU8 (some a) c = none := by simp [radixStepU8, hd]
      rw [hstep, foldl_radixStepU8_none] at h
      exact absurd h (by simp)
    | some d =>
      by_cases hle : a * 16 + d ≤ 255
      · have hstep : radixStepU8 (some a) c = some (a * 16 + d) := by
          simp [radixStepU8, hd, hle]
        rw [hstep] at h
        exact ih (a * 16 + d) hle n h
      · have hstep : radixStepU8 (some a) c = none := by
          simp [radixStepU8, hd, hle]
        rw [hstep, foldl_radixStepU8_none] at h
        exact absurd h (by simp)

theorem fromStrRadixU8_le (s : List Char) (n : Nat) (h : fromStrRadixU8 s = some n) :
    n ≤ 255 := by
  simp only [fromStrRadixU8] at h
  split at h
  · exact absurd h (by simp)
  · exact foldl_radixStepU8_le _ 0 (by omega) n h

theorem fromStrRadixU8_pair (p : List Char) (hp : p.length = 2) :
    (fromStrRadixU8 p).isSome = hexPairOk p := by
  obtain ⟨c1, c2, rfl⟩ : ∃ a b, p = [a, b] := by
    cases p with
    | nil => simp at hp
    | cons a q =>
      cases q with
      | nil => simp at hp
      | cons b q2 =>
        cases q2 with
        | nil => exact ⟨a, b, rfl⟩
        | cons c q3 => simp at hp
  by_cases h1 : c1 = '+'
  · subst h1
    have hplus : toDigit16 '+' = none := rfl
    cases hd : toDigit16 c2 with
    | none =>
      simp [fromStrRadixU8, hexPairOk, radixStepU8, hd, hplus]
    | some d =>
      have hle := toDigit16_le c2 d hd
      have hle' : d ≤ 255 := by omega
      simp [fromStrRadixU8, hexPairOk, radixStepU8, hd, hplus, hle']
  · cases hd1 : toDigit16 c1 with
    | none =>
      have hc1 : (c1 == '+') = false := by simp [h1]
      simp [fromStrRadixU8, h1, hexPairOk, radixStepU8, hd1, hc1]
    | some d1 =>
      have hle1 := toDigit16_le c1 d1 hd1
      have hle1' : d1 ≤ 255 := by omega
      have hc1 : (c1 == '+') = false := by simp [h1]
      cases hd2 : toDigit16 c2 with
      | none =>
        simp [fromStrRadixU8, h1, hexPairOk, radixStepU8, hd1, hd2, hc1, hle1']
      | some d2 =>
        have hle2 := toDigit16_le c2 d2 hd2
        have hle2' : d1 * 16 + d2 ≤ 255 := by omega
        simp [fromStrRadixU8, h1, hexPairOk, radixStepU8, hd1, hd2, hc1, hle1', hle2']

/-! ### Claim theorems -/

/-- C1, counterexample: the claim says a self-closing element never has any
child node, `Element` or `Text`.  On the accepted input `"<br>x"` the
parser attaches the Text child `"x"` to the self-closing `br` element:
the `Content` arm of `parse_element` pushes a Text child without checking
`is_tag_self_closing`. -/
theorem C1_counterexample :
    Parser.new "<br>x" = some [Token.TagBegin "br", Token.Content "x", Token.EOF] ∧
    Parser.parse [Token.TagBegin "br", Token.Content "x", Token.EOF] =
      some [Node.Element "br" [] [Node.Text "x"]] ∧
    isTagSelfClosing "br" = true :=
  ⟨rfl, rfl, rfl⟩

/-- C1, amended: for every input accepted by `Parser::new`, every Element
in the parsed forest whose tag is self-closing has no `Element` child —
all its children are Text leaves (`parse_element` stops on a nested
`TagBegin` and leaves that token for the enclosing caller) — recursively
throughout the forest.  `Content` tokens, however, do attach `Text`
children even to self-closing elements. -/
theorem C1_selfClosing_no_element_children :
    ∀ (input : String) (ts : List Token) (forest : List Node),
      Parser.new input = some ts → Parser.parse ts = some forest →
      ∀ n ∈ forest, SelfClosingOk n := by
  intro input ts forest _ hparse
  exact parseTopF_selfClosingOk (2 * ts.length + 1) ts forest hparse

/-- C1, witness: the amended theorem applied to the concrete accepted
input `"<img/>"`. -/
theorem C1_witness :
    Parser.new "<img/>" = some [Token.TagBegin "img", Token.EOF] ∧
    Parser.parse [Token.TagBegin "img", Token.EOF] = some [Node.Element "img" [] []] ∧
    SelfClosingOk (Node.Element "img" [] []) :=
  ⟨rfl, rfl,
    C1_selfClosing_no_element_children "<img/>" [Token.TagBegin "img", Token.EOF]
      [Node.Element "img" [] []] rfl rfl (Node.Element "img" [] []) (by simp)⟩

/-- C2, counterexample: the claim says a token sequence containing a
non-self-closing `TagBegin` never matched by any `TagEnd` makes `validate`
return false.  `[TagBegin "div", EOF]` has an unmatched non-self-closing
`TagBegin` and no `TagEnd` at all, yet `validate` returns true: the loop
ends without checking that the stack of open tags is empty. -/
theorem C2_counterexample :
    validate [Token.TagBegin "div", Token.EOF] = true ∧
    isTagSelfClosing "div" = false ∧
    ([Token.TagBegin "div", Token.EOF].all
      (fun t => match t with
        | Token.TagEnd _ => false
        | _ => true)) = true :=
  ⟨rfl, rfl, rfl⟩

/-- C2, amended: `validate` returns true on a token sequence iff every
`TagEnd` in it is processed when either no tag is open or the innermost
open non-self-closing tag carries the identical name (last-opened-first-
closed matching of the tags that do get closed); a non-self-closing
`TagBegin` that is never matched by a later `TagEnd` does not by itself
make `validate` return false — there is no end-of-sequence balance
check. -/
theorem C2_validate_characterisation :
    ∀ ts : List Token,
      validate ts = true ↔
        ∀ pre name post, ts = pre ++ Token.TagEnd name :: post →
          (stackFrom [] pre = [] ∨ (stackFrom [] pre).head? = some name) :=
  fun ts => validateFrom_true_iff ts []

/-- C3: a `TagEnd` processed while no non-self-closing tag is open never
by itself makes `validate` return false; a `TagEnd` whose name differs
from the most recently opened still-open tag makes `validate` return
false; and on the tokens of `"<html></body></html>"` validate is false
because the popped name `"html"` mismatches the closing name `"body"`. -/
theorem C3_tagEnd_behaviour :
    (∀ (ts : List Token) (name : String), validate ts = true → stackFrom [] ts = [] →
      validate (ts ++ [Token.TagEnd name]) = true) ∧
    (∀ (ts : List Token) (name top : String) (rest : List String),
      validate ts = true → stackFrom [] ts = top :: rest → top ≠ name →
      validate (ts ++ [Token.TagEnd name]) = false) ∧
    (lex "<html></body></html>" =
      some [Token.TagBegin "html", Token.TagEnd "body", Token.TagEnd "html", Token.EOF] ∧
      validate [Token.TagBegin "html", Token.TagEnd "body", Token.TagEnd "html",
        Token.EOF] = false) := by
  refine ⟨?_, ?_, rfl, rfl⟩
  · intro ts name h1 h2
    simp only [validate] at h1 ⊢
    rw [validateFrom_append, h1, h2]
    rfl
  · intro ts name top rest h1 h2 h3
    simp only [validate] at h1 ⊢
    rw [validateFrom_append, h1, h2]
    simp only [validateFrom, Bool.true_and]
    rw [if_neg (by simpa using h3)]

/-- C3, witness: both universally quantified parts applied at concrete
inputs (`ts = []`, and `ts = [TagBegin "a"]` with a mismatched close). -/
theorem C3_witness :
    (validate [] = true ∧ stackFrom [] ([] : List Token) = [] ∧
      validate [Token.TagEnd "p"] = true) ∧
    (validate [Token.TagBegin "a"] = true ∧
      stackFrom [] [Token.TagBegin "a"] = ["a"] ∧ "a" ≠ "b" ∧
      validate [Token.TagBegin "a", Token.TagEnd "b"] = false) :=
  ⟨⟨rfl, rfl, C3_tagEnd_behaviour.1 [] "p" rfl rfl⟩,
    ⟨rfl, rfl, by decide,
      C3_tagEnd_behaviour.2.1 [Token.TagBegin "a"] "b" "a" [] rfl rfl (by decide)⟩⟩

/-- C4: `lex` returns no token sequence exactly when, at an attribute
value introduced by `=`, the spec-worded failure condition holds — the
input ends before the closing double-quote, or a line break is
encountered first (`specQuotedValueFails` inside `specLexFails`); on
every other input the full token sequence is returned (and the `Option`
result carries no partial sequence on failure). -/
theorem C4_lex_none_iff_specLexFails :
    ∀ input : String, lex input = none ↔ specLexFails input = true :=
  fun input =>
    lexLoopF_none_iff_specFails (input.data.length + 1) false input.data
      (Nat.lt_succ_self _)

/-- C5: the documented example input lexes to exactly the ten expected
tokens, in order. -/
theorem C5_example_tokens :
    lex "<html><h1>Hello, World!</h1><div class=\"container\" style=\"color: blue\"></div></html>" =
      some [Token.TagBegin "html", Token.TagBegin "h1", Token.Content "Hello, World!",
        Token.TagEnd "h1", Token.TagBegin "div", Token.Attribute ("class", "container"),
        Token.Attribute ("style", "color: blue"), Token.TagEnd "div", Token.TagEnd "html",
        Token.EOF] := rfl

/-- C6: on `'<img src="image.png" alt="An image"/>'` construction succeeds
(lexing and validation pass) and parse returns the single `img` element
with the two attributes in encounter order and no children; the trailing
`/` is discarded and emits no token. -/
theorem C6_img_example :
    Parser.new "<img src=\"image.png\" alt=\"An image\"/>" =
      some [Token.TagBegin "img", Token.Attribute ("src", "image.png"),
        Token.Attribute ("alt", "An image"), Token.EOF] ∧
    Parser.parse [Token.TagBegin "img", Token.Attribute ("src", "image.png"),
        Token.Attribute ("alt", "An image"), Token.EOF] =
      some [Node.Element "img" [("src", "image.png"), ("alt", "An image")] []] :=
  ⟨rfl, rfl⟩

/-- C7: every concatenation of properly balanced `<tag></tag>` pairs (tag
names non-empty runs of alphanumeric/hyphen characters, no attributes, no
content) lexes successfully and validates true; and the empty token
sequence validates true. -/
theorem C7_balanced_pairs_validate :
    (∀ nms : List String, (∀ nm ∈ nms, goodName nm) →
      lex (String.mk (pairsChars nms)) = some (pairTokens nms ++ [Token.EOF]) ∧
      validate (pairTokens nms ++ [Token.EOF]) = true) ∧
    validate [] = true := by
  refine ⟨?_, rfl⟩
  intro nms hgood
  constructor
  · exact lexLoopF_pairs nms hgood ((pairsChars nms).length + 1) (Nat.lt_succ_self _)
  · exact validateFrom_pairTokens nms

/-- C7, witness: the theorem applied to the concrete pair list
`["html", "br"]` (which includes a self-closing tag name). -/
theorem C7_witness :
    (goodName "html" ∧ goodName "br") ∧
    lex (String.mk (pairsChars ["html", "br"])) =
      some (pairTokens ["html", "br"] ++ [Token.EOF]) ∧
    validate (pairTokens ["html", "br"] ++ [Token.EOF]) = true :=
  ⟨⟨by decide, by decide⟩,
    (C7_balanced_pairs_validate.1 ["html", "br"] (by decide)).1,
    (C7_balanced_pairs_validate.1 ["html", "br"] (by decide)).2⟩

/-- C8: every successful lex result contains exactly one `EOF` token and
that token is the last element of the sequence. -/
theorem C8_single_trailing_eof :
    ∀ (input : String) (ts : List Token), lex input = some ts →
      ts.count Token.EOF = 1 ∧ ts.getLast? = some Token.EOF := by
  intro input ts h
  obtain ⟨pre, rfl, hmem⟩ := lexLoopF_shape (input.data.length + 1) false input.data ts h
  constructor
  · rw [List.count_append]
    rw [List.count_eq_zero.mpr hmem]
    rfl
  · simp

/-- C8, witness: the theorem applied to the empty input, whose token
sequence is exactly `[EOF]`. -/
theorem C8_witness :
    lex "" = some [Token.EOF] ∧
    ([Token.EOF].count Token.EOF = 1 ∧ [Token.EOF].getLast? = some Token.EOF) :=
  ⟨rfl, C8_single_trailing_eof "" [Token.EOF] rfl⟩

/-- C9, counterexample: the claim says every input containing non-hex
content yields no color.  `"+00000"` contains `'+'`, which is not a
hexadecimal digit, yet `hex_to_rgba` returns a color:
`u8::from_str_radix` accepts an optional leading `+` sign. -/
theorem C9_counterexample :
    hex_to_rgba "+00000" = some (0, 0, 0, 1) ∧
    toDigit16 '+' = none ∧
    ("+00000".data.all (fun c => (toDigit16 c).isSome)) = false :=
  ⟨by simp [hex_to_rgba, fromStrRadixU8, radixStepU8, toDigit16, stripHash], rfl, rfl⟩

/-- C9, amended: `hex_to_rgba` returns a color exactly when, after
optionally stripping a single leading `#`, the input has exactly 6
characters and each of the three 2-character groups is accepted by
`u8::from_str_radix(_, 16)` — i.e. is two hexadecimal digits, or a `+`
followed by one hexadecimal digit; every returned channel is `value/255`
in the range 0.0–1.0 and the alpha component is exactly 1.0. -/
theorem C9_hex_domain_and_range :
    ∀ s : String,
      ((hex_to_rgba s).isSome = true ↔
        ((stripHash s.data).length = 6 ∧
          hexPairOk ((stripHash s.data).take 2) = true ∧
          hexPairOk (((stripHash s.data).drop 2).take 2) = true ∧
          hexPairOk (((stripHash s.data).drop 4).take 2) = true)) ∧
      (∀ r g b a : ℚ, hex_to_rgba s = some (r, g, b, a) →
        0 ≤ r ∧ r ≤ 1 ∧ 0 ≤ g ∧ g ≤ 1 ∧ 0 ≤ b ∧ b ≤ 1 ∧ a = 1) := by
  intro s
  by_cases hlen : (stripHash s.data).length = 6
  · have t1 : ((stripHash s.data).take 2).length = 2 := by
      simp [List.length_take, hlen]
    have t2 : (((stripHash s.data).drop 2).take 2).length = 2 := by
      simp [List.length_take, List.length_drop, hlen]
    have t3 : (((stripHash s.data).drop 4).take 2).length = 2 := by
      simp [List.length_take, List.length_drop, hlen]
    have e1 := fromStrRadixU8_pair _ t1
    have e2 := fromStrRadixU8_pair _ t2
    have e3 := fromStrRadixU8_pair _ t3
    constructor
    · rw [← e1, ← e2, ← e3]
      simp only [hex_to_rgba, hlen, if_true]
      cases h1 : fromStrRadixU8 ((stripHash s.data).take 2) with
      | none => simp [h1]
      | some rn =>
        cases h2 : fromStrRadixU8 (((stripHash s.data).drop 2).take 2) with
        | none => simp [h1, h2]
        | some gn =>
          cases h3 : fromStrRadixU8 (((stripHash s.data).drop 4).take 2) with
          | none => simp [h1, h2, h3]
          | some bn => simp [h1, h2, h3]
    · intro r g b a h
      simp only [hex_to_rgba, hlen, if_true] at h
      cases h1 : fromStrRadixU8 ((stripHash s.data).take 2) with
      | none => rw [h1] at h; exact absurd h (by simp)
      | some rn =>
        cases h2 : fromStrRadixU8 (((stripHash s.data).drop 2).take 2) with
        | none => rw [h1, h2] at h; exact absurd h (by simp)
        | some gn =>
          cases h3 : fromStrRadixU8 (((stripHash s.data).drop 4).take 2) with
          | none => rw [h1, h2, h3] at h; exact absurd h (by simp)
          | some bn =>
            rw [h1, h2, h3] at h
            simp only [Option.some.injEq, Prod.mk.injEq] at h
            obtain ⟨hr, hg, hb, ha⟩ := h
            have br' := fromStrRadixU8_le _ rn h1
            have bg' := fromStrRadixU8_le _ gn h2
            have bb' := fromStrRadixU8_le _ bn h3
            have hrle : (rn : ℚ) ≤ 255 := by exact_mod_cast br'
            have hgle : (gn : ℚ) ≤ 255 := by exact_mod_cast bg'
            have hble : (bn : ℚ) ≤ 255 := by exact_mod_cast bb'
            refine ⟨?_, ?_, ?_, ?_, ?_, ?_, ha.symm⟩
            · rw [← hr]; positivity
            · rw [← hr]
              rw [div_le_one (by norm_num)]
              exact hrle
            · rw [← hg]; positivity
            · rw [← hg]
              rw [div_le_one (by norm_num)]
              exact hgle
            · rw [← hb]; positivity
            · rw [← hb]
              rw [div_le_one (by norm_num)]
              exact hble
  · constructor
    · simp only [hex_to_rgba, hlen, if_false]
      simp [hlen]
    · intro r g b a h
      simp only [hex_to_rgba, hlen, if_false] at h
      exact absurd h (by simp)

/-- C9, witness: the amended theorem's range part applied to the concrete
input `"#ff0000"`, whose red channel is 255/255 = 1. -/
theorem C9_witness :
    hex_to_rgba "#ff0000" = some (1, 0, 0, 1) ∧
    (0 ≤ (1 : ℚ) ∧ (1 : ℚ) ≤ 1 ∧ 0 ≤ (0 : ℚ) ∧ (0 : ℚ) ≤ 1 ∧ 0 ≤ (0 : ℚ) ∧
      (0 : ℚ) ≤ 1 ∧ (1 : ℚ) = 1) :=
  ⟨by simp [hex_to_rgba, fromStrRadixU8, radixStepU8, toDigit16, stripHash],
    (C9_hex_domain_and_range "#ff0000").2 1 0 0 1
      (by simp [hex_to_rgba, fromStrRadixU8, radixStepU8, toDigit16, stripHash])⟩

/-- C10: every call of `parse_element` strictly advances the shared cursor
(counting the opening `TagBegin` the caller hands over), and `parse` is
total on every finite token sequence — the fixed fuel `2·length + 1` of
the embedding always suffices, which is exactly the termination argument
for the Rust loop/recursion pair. -/
theorem C10_termination :
    (∀ (fuel : Nat) (tag : String) (rest : List Token) (node : Node)
      (rest' : List Token), parseElemF fuel tag rest = some (node, rest') →
        rest'.length < (Token.TagBegin tag :: rest).length) ∧
    (∀ ts : List Token, ∃ ns, Parser.parse ts = some ns) := by
  constructor
  · intro fuel tag rest node rest' h
    simp only [parseElemF] at h
    cases hout : parseLoopF fuel tag [] [] rest with
    | none => rw [hout] at h; exact absurd h (by simp)
    | some out =>
      rw [hout] at h
      simp only [Option.map_some', Option.some.injEq, Prod.mk.injEq] at h
      have := parseLoopF_length fuel tag [] [] rest out hout
      rw [h.2] at this
      simp only [List.length_cons]
      omega
  · intro ts
    exact parseTopF_total (2 * ts.length + 1) ts (Nat.le_refl _)

/-- C10, witness: the cursor-advance part applied to a concrete
`parse_element` call (element `"div"` with no further tokens). -/
theorem C10_witness :
    parseElemF 1 "div" [] = some (Node.Element "div" [] [], []) ∧
    ([] : List Token).length < [Token.TagBegin "div"].length :=
  ⟨rfl, C10_termination.1 1 "div" [] (Node.Element "div" [] []) [] rfl⟩

end BrowserRs
